import Mathlib

/-!
Verification of the humanlog JSON log prettifier (package `humanlog`,
file containing `JSONHandler`): a shallow embedding of the handler's
normalization (`UnmarshalJSON`), classification (`TryHandle`), rendering
(`Prettify` / `joinKVs`) and state rotation (`clear`), together with
theorems settling the specification's claims about them.

Go strings are modelled as lists of bytes (`GoStr := List Nat`), because
the source indexes, slices and measures strings in bytes (`len`, `s[:n]`).
Go `float64` JSON numbers are modelled as exact rationals `ℚ`; the
branch conditions of the source are exact rational comparisons.
-/

set_option allowUnsafeReducibility true

attribute [semireducible] Rat.add Rat.sub Rat.mul Rat.div Rat.neg Rat.inv

namespace Humanlog

/-- A Go string: a list of bytes (each `< 256`).  Go's `len` and slicing
operate on bytes, which this representation makes direct. -/
abbrev GoStr := List Nat

/-- Bytes of an ASCII string literal (code points = bytes for ASCII). -/
def bytes (s : String) : GoStr := s.data.map Char.toNat

/-- Association-list lookup for string-keyed maps (models Go map
indexing, for both the decoded-JSON map and the display-string map). -/
def lookupGo {α : Type} (l : List (GoStr × α)) (k : GoStr) : Option α :=
  match l with
  | [] => none
  | p :: rest => if p.1 = k then some p.2 else lookupGo rest k

/-- Go `delete(m, k)` on an association list. -/
def delGo {α : Type} (l : List (GoStr × α)) (k : GoStr) : List (GoStr × α) :=
  l.filter (fun p => ¬ p.1 = k)

/-- Verbatim from the source, `imin`: minimum of two ints. -/
def imin (a b : Nat) : Nat := if a < b then a else b

/-! ## UTF-8 and Unicode case mapping (models of the Go standard library) -/

/-- Fuel-driven worker for `utf8DecodeGo`; the fuel only bounds the number
of decoding steps (one unit per decoded rune) and is instantiated with the
byte length of the input, which always suffices. -/
def utf8DecodeAux : Nat → List Nat → List Nat
  | 0, _ => []
  | _, [] => []
  | fuel + 1, b1 :: rest =>
    if b1 < 0x80 then b1 :: utf8DecodeAux fuel rest
    else if 0xC2 ≤ b1 ∧ b1 ≤ 0xDF then
      match rest with
      | b2 :: rest2 =>
        if 0x80 ≤ b2 ∧ b2 ≤ 0xBF then
          ((b1 - 0xC0) * 64 + (b2 - 0x80)) :: utf8DecodeAux fuel rest2
        else 0xFFFD :: utf8DecodeAux fuel rest
      | [] => 0xFFFD :: utf8DecodeAux fuel rest
    else if 0xE0 ≤ b1 ∧ b1 ≤ 0xEF then
      match rest with
      | b2 :: b3 :: rest3 =>
        if (0x80 ≤ b2 ∧ b2 ≤ 0xBF) ∧ (0x80 ≤ b3 ∧ b3 ≤ 0xBF) ∧
           (let r := (b1 - 0xE0) * 4096 + (b2 - 0x80) * 64 + (b3 - 0x80)
            0x800 ≤ r ∧ ¬(0xD800 ≤ r ∧ r ≤ 0xDFFF)) then
          ((b1 - 0xE0) * 4096 + (b2 - 0x80) * 64 + (b3 - 0x80)) :: utf8DecodeAux fuel rest3
        else 0xFFFD :: utf8DecodeAux fuel rest
      | _ => 0xFFFD :: utf8DecodeAux fuel rest
    else if 0xF0 ≤ b1 ∧ b1 ≤ 0xF4 then
      match rest with
      | b2 :: b3 :: b4 :: rest4 =>
        if (0x80 ≤ b2 ∧ b2 ≤ 0xBF) ∧ (0x80 ≤ b3 ∧ b3 ≤ 0xBF) ∧ (0x80 ≤ b4 ∧ b4 ≤ 0xBF) ∧
           (let r := (b1 - 0xF0) * 262144 + (b2 - 0x80) * 4096 + (b3 - 0x80) * 64 + (b4 - 0x80)
            0x10000 ≤ r ∧ r ≤ 0x10FFFF) then
          ((b1 - 0xF0) * 262144 + (b2 - 0x80) * 4096 + (b3 - 0x80) * 64 + (b4 - 0x80)) ::
            utf8DecodeAux fuel rest4
        else 0xFFFD :: utf8DecodeAux fuel rest
      | _ => 0xFFFD :: utf8DecodeAux fuel rest
    else 0xFFFD :: utf8DecodeAux fuel rest

/-- Decode a UTF-8 byte list into a list of runes, following Go's
`utf8.DecodeRune` loop: an invalid byte yields the replacement rune
`0xFFFD` and consumes one byte.  Modelled from the Go standard library. -/
def utf8DecodeGo (s : List Nat) : List Nat := utf8DecodeAux s.length s

/-- Encode one rune as UTF-8 bytes (model of Go `utf8.EncodeRune`). -/
def utf8EncodeRune (r : Nat) : List Nat :=
  if r < 0x80 then [r]
  else if r < 0x800 then [0xC0 + r / 64, 0x80 + r % 64]
  else if r < 0x10000 then [0xE0 + r / 4096, 0x80 + (r / 64) % 64, 0x80 + r % 64]
  else [0xF0 + r / 262144, 0x80 + (r / 4096) % 64, 0x80 + (r / 64) % 64, 0x80 + r % 64]

/-- Encode a list of runes as UTF-8 bytes. -/
def utf8Encode (rs : List Nat) : List Nat := rs.flatMap utf8EncodeRune

/-- Simple Unicode uppercase mapping of one rune, a model of the Go
standard library's `unicode.ToUpper` restricted to the code points this
development evaluates at: ASCII letters `a`-`z` map to `A`-`Z`, and
`U+017F` (latin small letter long s, `ſ`) maps to `U+0053` (`S`) as in
the Unicode simple case mapping; all other runes are left unchanged. -/
def goUpperRune (r : Nat) : Nat :=
  if 0x61 ≤ r ∧ r ≤ 0x7A then r - 0x20
  else if r = 0x17F then 0x53
  else r

/-- Model of Go `strings.ToUpper`: decode the UTF-8 bytes to runes, map
the simple uppercase mapping over them, and re-encode.  Note the result
can have FEWER bytes than the input (e.g. `ſ` → `S`). -/
def goToUpper (s : GoStr) : GoStr := utf8Encode ((utf8DecodeGo s).map goUpperRune)

/-- Go byte slicing `s[:n]`: returns the first `n` bytes when `n ≤ len s`,
and `none` when the bound is out of range (Go panics with
"slice bounds out of range").  Models the Go slice expression. -/
def goSliceTo (s : GoStr) (n : Nat) : Option GoStr :=
  if n ≤ s.length then some (s.take n) else none

/-- The level-abbreviation step of `Prettify`, verbatim from the source:
`strings.ToUpper(h.Level)[:imin(4, len(h.Level))]`.  The slice bound is
computed from the byte length of the ORIGINAL level string but applied to
the upper-cased string; `none` models the panic when that bound exceeds
the upper-cased string's byte length. -/
def levelAbbrev (level : GoStr) : Option GoStr :=
  goSliceTo (goToUpper level) (imin 4 level.length)

/-! ## Decoded JSON values and value formatting -/

/-- A decoded JSON value, as Go's `json.Unmarshal` into
`map[string]interface{}` produces them: numbers arrive as `float64`
(modelled by exact rationals), strings, booleans, null, arrays and nested
objects.  `jint` mirrors the source's `int64` type assertion branch; the
standard decoder never produces it, but the branch is modelled so the
embedding is total over the source's case analysis. -/
inductive JVal where
  | jnum (q : ℚ)
  | jint (n : Int)
  | jstr (s : GoStr)
  | jbool (b : Bool)
  | jnull
  | jarr (l : List JVal)
  | jobj (l : List (GoStr × JVal))

/-- A decoded JSON object (`map[string]interface{}`), as an association
list with (per JSON object semantics) pairwise-distinct keys. -/
abbrev Raw := List (GoStr × JVal)

/-- Go map lookup on a decoded object. -/
abbrev lookupJ (l : Raw) (k : GoStr) : Option JVal := lookupGo l k

/-- Go `delete(raw, k)`. -/
abbrev delJ (l : Raw) (k : GoStr) : Raw := delGo l k

/-- Decimal digits of a natural number in ASCII; fuel-driven
(`fuel = n + 1` always suffices). -/
def natDigits : Nat → Nat → List Nat
  | 0, _ => []
  | fuel + 1, n => if n < 10 then [48 + n] else natDigits fuel (n / 10) ++ [48 + n % 10]

/-- ASCII decimal rendering of an integer, as Go `fmt.Sprintf("%d", _)`. -/
def intDec (n : Int) : GoStr :=
  if n < 0 then 45 :: natDigits (n.natAbs + 1) n.natAbs
  else natDigits (n.natAbs + 1) n.natAbs

/-- Go's `int(v)` conversion of a `float64`: truncation toward zero. -/
def goTrunc (q : ℚ) : Int := if 0 ≤ q then ⌊q⌋ else ⌈q⌉

/-- Model of Go's `fmt.Sprintf("%g", v)` for values with a terminating
decimal expansion in the non-exponent range: the shortest exact decimal
string (sign, integer part, and a fractional part exactly when the value
is not an integer).  Computed from the reduced numerator and denominator:
`k` is the least exponent with `den ∣ 10^k`, i.e. the least number of
fractional digits that writes the value exactly.  The `%g`
exponent-notation regimes (very large or very small magnitudes) and
non-terminating rationals are outside the values this development
evaluates the model at; the latter fall back to a plain marker. -/
def formatG (q : ℚ) : GoStr :=
  let sign : GoStr := if q.num < 0 then [45] else []
  match (List.range 40).find? (fun k => q.den ∣ 10 ^ k) with
  | some k =>
    let n := q.num.natAbs * 10 ^ k / q.den
    let ds := natDigits (n + 1) n
    let ds := List.replicate (k + 1 - ds.length) 48 ++ ds
    if k = 0 then sign ++ ds
    else sign ++ ds.take (ds.length - k) ++ [46] ++ ds.drop (ds.length - k)
  | none => sign ++ [63]

/-- Escape one byte as inside Go's `%q` (`strconv.Quote`) output: quote
and backslash are backslash-escaped, common control characters get their
two-character escapes, other control bytes get a `\x` hex escape, and
printable ASCII as well as high (UTF-8 continuation/lead) bytes are kept
verbatim.  A model of the Go standard library quoting for the printable
and valid-UTF-8 inputs considered here. -/
def quoteByte (b : Nat) : List Nat :=
  if b = 34 then [92, 34]
  else if b = 92 then [92, 92]
  else if b = 10 then [92, 110]
  else if b = 9 then [92, 116]
  else if b = 13 then [92, 114]
  else if b < 32 then
    let hex := fun (n : Nat) => if n < 10 then 48 + n else 87 + n
    [92, 120, hex (b / 16), hex (b % 16)]
  else [b]

/-- Model of Go `fmt.Sprintf("%q", s)`: the escaped bytes surrounded by
double quotes. -/
def goQuote (s : GoStr) : GoStr := 34 :: s.flatMap quoteByte ++ [34]

/-- Go `fmt.Sprintf("%v", _)` for the decoded JSON values, used for the
`default` arm of the source's type switch (bool, null, arrays, nested
objects); numbers inside use `%g`, strings appear unquoted, `nil` prints
`<nil>`, slices as space-separated brackets and maps as `map[k:v ...]`
with keys in sorted order.  Modelled from the Go standard library. -/
def govRepr (fuel : Nat) (v : JVal) : GoStr :=
  match fuel, v with
  | 0, _ => []
  | _ + 1, .jnum q => formatG q
  | _ + 1, .jint n => intDec n
  | _ + 1, .jstr s => s
  | _ + 1, .jbool b => if b then bytes "true" else bytes "false"
  | _ + 1, .jnull => bytes "<nil>"
  | fuel + 1, .jarr l =>
    91 :: List.intercalate [32] (l.map (govRepr fuel)) ++ [93]
  | fuel + 1, .jobj l =>
    bytes "map[" ++ List.intercalate [32] (l.map (fun p => p.1 ++ [58] ++ govRepr fuel p.2)) ++ [93]

/-- The type-directed display-string rendering of one remaining field
value, verbatim from the source's `switch v := val.(type)` in
`UnmarshalJSON`: a `float64` within `1e-6` ABOVE its floor and below
`1e9` renders as the decimal of Go's `int(v)`; any other `float64`
renders via `%g`; a string renders via `%q`; everything else via `%v`.
The model prints the exact truncated integer, while Go's `int` is 64-bit
and the conversion is implementation-defined below `-2^63` — a reachable
region, since every negative value passes the one-sided `v < 1e9` check —
so the theorems about the integer branch are stated for `v ≥ -2^63`. -/
def formatVal : JVal → GoStr
  | .jnum q =>
    if q - (⌊q⌋ : ℚ) < 1 / 1000000 ∧ q < 1000000000 then intDec (goTrunc q)
    else formatG q
  | .jstr s => goQuote s
  | v => govRepr 100 v

/-! ## Handler state, options, normalization -/

/-- A Go `time.Time` at the granularity this code distinguishes: the zero
value, a `time.Unix(sec, nsec)` instant, or an instant produced by the
repository's `tryParseTime` (represented by the layout-parsed string).
The zero value is a distinct constructor, as in Go (`time.Time{}` is not
`time.Unix(0, 0)`). -/
inductive GoTime where
  | zero
  | unix (sec nsec : Int)
  | parsed (s : GoStr)
deriving DecidableEq

/-- An RGB color triple, as in the options' `KeyRGB`/`ValRGB`. -/
structure RGB where
  R : Nat
  G : Nat
  B : Nat

/-- Modelled from the spec, `HandlerOptions` (the options file is not part
of the sources at hand): the rendering options consumed by the handler.
The key-visibility predicate `shouldShowKey` and the unchanged-visibility
override `shouldShowUnchanged` are, per the spec, opaque boolean functions
of a key name, so they are plain function fields. -/
structure HandlerOptions where
  TimeFormat : GoStr
  LightBg : Bool
  Truncates : Bool
  TruncateLength : Nat
  SortLongest : Bool
  KeyRGB : RGB
  ValRGB : RGB
  shouldShowKey : GoStr → Bool
  shouldShowUnchanged : GoStr → Bool

/-- The `JSONHandler` state: level, time, message and the display-string
field map of the current record, plus `last`, the previous record's field
map (the diff state).  The handler's scratch output buffer and tabwriter
(`buf`, `out`) are excluded: the render output is modelled as a returned
value, and the tab-alignment pass is the spec's excluded external
capability. -/
structure JSONHandler where
  Opts : HandlerOptions
  Level : GoStr
  Time : GoTime
  Message : GoStr
  Fields : List (GoStr × GoStr)
  last : List (GoStr × GoStr)

/-- Verbatim from the source, `(*JSONHandler).clear`: reset level, time
and message, rotate the current field map into `last`, and replace the
field map with a fresh empty one.  (The source also resets the scratch
buffer, which is not part of the modelled state.) -/
def JSONHandler.clear (h : JSONHandler) : JSONHandler :=
  { h with Level := [], Time := .zero, Message := [], last := h.Fields, Fields := [] }

/-- Go map store `m[k] = v` on an association list: replaces any existing
binding of `k` and otherwise adds one (binding position is irrelevant:
Go map iteration order is unspecified, and rendering sorts). -/
def storeS (l : List (GoStr × GoStr)) (k v : GoStr) : List (GoStr × GoStr) :=
  (k, v) :: delGo l k

/-- The message step of `UnmarshalJSON`, verbatim from the source: a
string under `msg`, else under `message`, else the empty string; the
matched key is deleted.  Returns the message and the remainder map. -/
def extractMsg (raw : Raw) : GoStr × Raw :=
  match lookupJ raw (bytes "msg") with
  | some (.jstr s) => (s, delJ raw (bytes "msg"))
  | _ =>
    match lookupJ raw (bytes "message") with
    | some (.jstr s) => (s, delJ raw (bytes "message"))
    | _ => ([], raw)

/-- The level step of `UnmarshalJSON`, verbatim from the source: a string
under `level`, else under `lvl`, else the `"????"` default.  Note that
when `level` was not a string the source deletes `lvl` UNCONDITIONALLY
(also when `lvl` is absent or not a string). -/
def extractLevel (raw : Raw) : GoStr × Raw :=
  match lookupJ raw (bytes "level") with
  | some (.jstr s) => (s, delJ raw (bytes "level"))
  | _ =>
    match lookupJ raw (bytes "lvl") with
    | some (.jstr s) => (s, delJ raw (bytes "lvl"))
    | _ => (bytes "????", delJ raw (bytes "lvl"))

/-- The message-, level- and remaining-field steps of `UnmarshalJSON`
(everything after the timestamp handling), verbatim from the source: the
two extraction steps above, then the type-directed rendering of every
remaining key into `Fields`. -/
def finishUnmarshal (h : JSONHandler) (raw : Raw) : JSONHandler :=
  let m := extractMsg raw
  let l := extractLevel m.2
  { h with
    Message := m.1
    Level := l.1
    Fields := (l.2).foldl (fun fs p => storeS fs p.1 (formatVal p.2)) h.Fields }

/-- From the source, `(*JSONHandler).UnmarshalJSON`, over an
already-decoded input: `none` models a `json.Unmarshal` failure (the line
is not a JSON object), `some raw` its decoded key/value map.
`tp` is the repository's `tryParseTime` (its file is not among the
sources at hand), passed as an opaque partial parsing function; `none`
means the string matches no supported timestamp layout, which makes
normalization fail.  Timestamp extraction: a string under `time`, else a
string under `ts`, else an `int64` or `float64` under `ts` as Unix
seconds (the float case carrying fractional nanoseconds); with no match
the handler's time field is left untouched.  `tsFallback` is the arm
taken when no string was found under `time` (the source's
`else if i, iOk := ...` cascade on `ts`), named so proofs can reuse it. -/
def tsFallback (tp : GoStr → Option GoTime) (h : JSONHandler) (raw : Raw) :
    Option JSONHandler :=
  match lookupJ raw (bytes "ts") with
  | some (.jstr s) =>
    match tp s with
    | none => none
    | some t => some (finishUnmarshal { h with Time := t } (delJ raw (bytes "ts")))
  | some (.jint i) =>
    some (finishUnmarshal { h with Time := .unix i 0 } (delJ raw (bytes "ts")))
  | some (.jnum f) =>
    some (finishUnmarshal
      { h with Time := .unix (goTrunc f) (goTrunc ((f - (goTrunc f : ℚ)) * 1000000000)) }
      (delJ raw (bytes "ts")))
  | _ => some (finishUnmarshal h raw)

def UnmarshalJSON (tp : GoStr → Option GoTime) (h : JSONHandler) :
    Option Raw → Option JSONHandler
  | none => none
  | some raw =>
    match lookupJ raw (bytes "time") with
    | some (.jstr s) =>
      match tp s with
      | none => none
      | some t => some (finishUnmarshal { h with Time := t } (delJ raw (bytes "time")))
    | _ => tsFallback tp h raw

/-- Does `pat` occur at the head of `s`? (`bytes.HasPrefix`.) -/
def startsWith : List Nat → List Nat → Bool
  | _, [] => true
  | [], _ :: _ => false
  | a :: s, b :: p => a = b && startsWith s p

/-- Does `pat` occur contiguously anywhere in `s`? (`bytes.Contains`.) -/
def containsSub : List Nat → List Nat → Bool
  | [], pat => pat.isEmpty
  | a :: rest, pat => startsWith (a :: rest) pat || containsSub rest pat

/-- Verbatim from the source, `(*JSONHandler).TryHandle`: probe the raw
bytes for a `"time":` or `"ts":` substring; on probe failure return
`false` with the state untouched; otherwise run the full parse (`decode`
models `json.Unmarshal` of the raw bytes into a key/value map) and on
parse failure call `clear` and report `false`.  On the failure paths the
source has only assigned to `Level`/`Time`/`Message` before erroring
(never to `Fields`), and `clear` overwrites exactly those, so clearing
the entry state is the exact final state. -/
def TryHandle (decode : GoStr → Option Raw) (tp : GoStr → Option GoTime)
    (h : JSONHandler) (d : GoStr) : Bool × JSONHandler :=
  if ¬ (containsSub d (bytes "\"time\":") ∨ containsSub d (bytes "\"ts\":")) then
    (false, h)
  else
    match UnmarshalJSON tp h (decode d) with
    | none => (false, h.clear)
    | some h2 => (true, h2)

/-! ## Rendering: coloring, truncation, sorting, `joinKVs`, `Prettify` -/

/-- Model of `rgbterm.FgString(text, r, g, b)` (external dependency):
wrap the text in a true-color ANSI foreground escape and a reset.  The
escape prefix ends with `m` (byte `109`) and both the prefix and the
reset begin with the escape byte `27`. -/
def fgString (r g b : Nat) (s : GoStr) : GoStr :=
  [27, 91, 51, 56, 59, 50, 59] ++ natDigits (r + 1) r ++ [59] ++ natDigits (g + 1) g ++ [59] ++
    natDigits (b + 1) b ++ [109] ++ s ++ [27, 91, 48, 109]

/-- Model of `rgbterm.BgString(text, r, g, b)` (external dependency):
as `fgString` with the background escape code `48`. -/
def bgString (r g b : Nat) (s : GoStr) : GoStr :=
  [27, 91, 52, 56, 59, 50, 59] ++ natDigits (r + 1) r ++ [59] ++ natDigits (g + 1) g ++ [59] ++
    natDigits (b + 1) b ++ [109] ++ s ++ [27, 91, 48, 109]

/-- The value-truncation step of `joinKVs`, verbatim from the source:
when truncation is enabled and the display value has MORE BYTES than the
configured limit, keep the first `TruncateLength` bytes and append the
three bytes `...`; otherwise keep the value unchanged. -/
def truncVal (opts : HandlerOptions) (v : GoStr) : GoStr :=
  if opts.Truncates ∧ v.length > opts.TruncateLength then
    v.take opts.TruncateLength ++ [46, 46, 46]
  else v

/-- The `key=value` token built for one field by `joinKVs`: the colorized
key, the separator, and the colorized (truncated) value. -/
def kvToken (opts : HandlerOptions) (sep : GoStr) (k v : GoStr) : GoStr :=
  fgString opts.KeyRGB.R opts.KeyRGB.G opts.KeyRGB.B k ++ sep ++
    fgString opts.ValRGB.R opts.ValRGB.G opts.ValRGB.B (truncVal opts v)

/-- Lexicographic (byte-wise) order on byte strings, as Go's `<` on
strings used by `sort.Strings`. -/
def lexLe : List Nat → List Nat → Bool
  | [], _ => true
  | _ :: _, [] => false
  | a :: s, b :: t => if a < b then true else if b < a then false else lexLe s t

/-- Stable insertion into a list sorted by `r` (the new element goes
before the first strictly-later element, after its equals). -/
def insSorted (r : GoStr → GoStr → Bool) (x : GoStr) : List GoStr → List GoStr
  | [] => [x]
  | y :: ys => if r x y then x :: y :: ys else y :: insSorted r x ys

/-- Stable insertion sort by `r`; models `sort.Strings` (with
`r = lexLe`; ties are identical strings, so stability is irrelevant
there and any correct sort produces this list) and `sort.Stable` (with a
genuinely stable algorithm, as `sort.Stable` guarantees). -/
def sortBy (r : GoStr → GoStr → Bool) : List GoStr → List GoStr
  | [] => []
  | x :: xs => insSorted r x (sortBy r xs)

/-- Modelled from the spec, the ordering of `byLongest`: the repository file
defining `byLongest` is not among the sources at hand; per the spec the
secondary sort groups tokens by ascending length (`sort.Stable` over a
less-by-length comparison, whose non-strict counterpart this is). -/
def byLongestLe (a b : GoStr) : Bool := a.length ≤ b.length

/-- Verbatim from the source, `(*JSONHandler).joinKVs`: for each field,
drop it if the visibility predicate rejects the key; with diff-suppression
on, additionally drop it when `last` holds the same display value and the
unchanged-override does not force it; colorize and truncate what remains
into `key=value` tokens; `sort.Strings` the tokens; and, when the
`SortLongest` option is set, stably re-sort them by length. -/
def joinKVs (opts : HandlerOptions) (fields last : List (GoStr × GoStr))
    (skipUnchanged : Bool) (sep : GoStr) : List GoStr :=
  let kv := fields.filterMap (fun p =>
    if ¬ opts.shouldShowKey p.1 then none
    else if skipUnchanged ∧ lookupGo last p.1 = some p.2 ∧ ¬ opts.shouldShowUnchanged p.1 then
      none
    else some (kvToken opts sep p.1 p.2))
  let kv := sortBy lexLe kv
  if opts.SortLongest then sortBy byLongestLe kv else kv

/-- The level-styling switch of `Prettify`, verbatim from the source:
colors keyed on the raw level string, with the abbreviated tag as text;
fatal/panic use background (inverted) styling, unknown levels the debug
hue.  `none` propagates the abbreviation panic. -/
def levelStyled (level : GoStr) : Option GoStr :=
  match levelAbbrev level with
  | none => none
  | some lvl =>
    some (if level = bytes "debug" then fgString 221 28 119 lvl
      else if level = bytes "info" then fgString 20 172 190 lvl
      else if level = bytes "warn" ∨ level = bytes "warning" then fgString 255 245 32 lvl
      else if level = bytes "error" then fgString 255 0 0 lvl
      else if level = bytes "fatal" ∨ level = bytes "panic" then bgString 255 0 0 lvl
      else fgString 221 28 119 lvl)

/-- From the source, `(*JSONHandler).Prettify`.  `fmtTime` models the Go
standard library's `time.Time.Format` applied to the configured layout;
the tabwriter column-alignment pass (the spec's excluded external
capability) is modelled as the identity on the formatted line, whose
tab-delimited shape is built here exactly as the source's `Fprintf`
format `"%s |%s| %s\t %s"` with tokens joined by `"\t "`.  The first
component is the rendered line (`none` models the level-slicing panic);
the second is the post-render handler state, which the source's
`defer h.clear()` makes `h.clear` on every path, panic included (a
deferred call runs during unwinding). -/
def Prettify (fmtTime : GoStr → GoTime → GoStr) (h : JSONHandler)
    (skipUnchanged : Bool) : Option GoStr × JSONHandler :=
  let msg :=
    if h.Message = [] then fgString 190 190 190 (bytes "<no msg>")
    else if h.Opts.LightBg then fgString 0 0 0 h.Message
    else fgString 255 255 255 h.Message
  let out :=
    match levelStyled h.Level with
    | none => none
    | some level =>
      some (fgString 99 99 99 (fmtTime h.Opts.TimeFormat h.Time) ++ bytes " |" ++ level ++
        bytes "| " ++ msg ++ [9, 32] ++
        List.intercalate [9, 32] (joinKVs h.Opts h.Fields h.last skipUnchanged (bytes "=")))
  (out, h.clear)

/-! ## Lemmas: lookups, deletes, stores -/

theorem lookupGo_delGo_self {α : Type} (l : List (GoStr × α)) (k : GoStr) :
    lookupGo (delGo l k) k = none := by
  induction l with
  | nil => rfl
  | cons p rest ih =>
    by_cases hp : p.1 = k <;> simp [delGo, lookupGo, hp] at ih ⊢ <;>
      simpa [delGo, hp] using ih

theorem lookupGo_delGo_ne {α : Type} (l : List (GoStr × α)) {k k2 : GoStr} (h : k2 ≠ k) :
    lookupGo (delGo l k) k2 = lookupGo l k2 := by
  induction l with
  | nil => rfl
  | cons p rest ih =>
    by_cases hp : p.1 = k
    · have hne : ¬ p.1 = k2 := by rw [hp]; exact fun hh => h hh.symm
      rw [show delGo (p :: rest) k = delGo rest k by simp [delGo, hp]]
      rw [ih, lookupGo, if_neg hne]
    · rw [show delGo (p :: rest) k = p :: delGo rest k by simp [delGo, hp]]
      by_cases hp2 : p.1 = k2
      · rw [lookupGo, if_pos hp2, lookupGo, if_pos hp2]
      · rw [lookupGo, if_neg hp2, lookupGo, if_neg hp2, ih]

theorem lookupGo_none_delGo {α : Type} (l : List (GoStr × α)) {k : GoStr} (k2 : GoStr)
    (h : lookupGo l k = none) : lookupGo (delGo l k2) k = none := by
  by_cases hk : k = k2
  · subst hk; exact lookupGo_delGo_self l k
  · rw [lookupGo_delGo_ne l hk]; exact h

theorem lookupGo_storeS {l : List (GoStr × GoStr)} {k k2 v : GoStr} :
    lookupGo (storeS l k v) k2 = if k = k2 then some v else lookupGo l k2 := by
  by_cases hk : k = k2
  · subst hk; simp [storeS, lookupGo]
  · rw [if_neg hk]
    show (if k = k2 then some v else lookupGo (delGo l k) k2) = lookupGo l k2
    rw [if_neg hk]
    exact lookupGo_delGo_ne l (fun hh => hk hh.symm)

theorem lookupGo_fieldsFold (raw : Raw) (fs0 : List (GoStr × GoStr)) {k : GoStr}
    (hraw : lookupGo raw k = none) (hfs : lookupGo fs0 k = none) :
    lookupGo (raw.foldl (fun fs p => storeS fs p.1 (formatVal p.2)) fs0) k = none := by
  induction raw generalizing fs0 with
  | nil => exact hfs
  | cons p rest ih =>
    simp only [lookupGo] at hraw
    by_cases hp : p.1 = k
    · simp [hp] at hraw
    · simp only [hp, if_false] at hraw
      simp only [List.foldl_cons]
      exact ih _ hraw (by rw [lookupGo_storeS, if_neg hp]; exact hfs)

theorem lookupGo_eq_of_mem {α : Type} {l : List (GoStr × α)} {k : GoStr} {v : α}
    (hnd : (l.map Prod.fst).Nodup) (hm : (k, v) ∈ l) : lookupGo l k = some v := by
  induction l with
  | nil => cases hm
  | cons p rest ih =>
    rcases List.mem_cons.1 hm with he | hm2
    · subst he; simp [lookupGo]
    · have hne : p.1 ≠ k := by
        intro he
        have : k ∈ rest.map Prod.fst := List.mem_map.2 ⟨(k, v), hm2, rfl⟩
        rw [List.map_cons, List.nodup_cons] at hnd
        exact hnd.1 (he ▸ this)
      rw [List.map_cons, List.nodup_cons] at hnd
      simp only [lookupGo, hne, if_false]
      exact ih hnd.2 hm2

theorem value_eq_of_mem_nodup {α : Type} {l : List (GoStr × α)} {k : GoStr} {v w : α}
    (hnd : (l.map Prod.fst).Nodup) (hv : (k, v) ∈ l) (hw : (k, w) ∈ l) : v = w := by
  have h1 := lookupGo_eq_of_mem hnd hv
  have h2 := lookupGo_eq_of_mem hnd hw
  rw [h1] at h2; exact Option.some_inj.1 h2

/-! ## Lemmas: sorting -/

theorem mem_insSorted {r : GoStr → GoStr → Bool} {x y : GoStr} {l : List GoStr} :
    y ∈ insSorted r x l ↔ y = x ∨ y ∈ l := by
  induction l with
  | nil => simp [insSorted]
  | cons z zs ih =>
    by_cases hr : r x z
    · simp [insSorted, hr]
    · simp [insSorted, hr, ih]; tauto

theorem mem_sortBy {r : GoStr → GoStr → Bool} {y : GoStr} {l : List GoStr} :
    y ∈ sortBy r l ↔ y ∈ l := by
  induction l with
  | nil => simp [sortBy]
  | cons z zs ih => simp [sortBy, mem_insSorted, ih]

theorem pairwise_insSorted {r : GoStr → GoStr → Bool}
    (htot : ∀ a b, r a b = true ∨ r b a = true)
    (htr : ∀ a b c, r a b = true → r b c = true → r a c = true)
    {x : GoStr} {l : List GoStr} (h : l.Pairwise (fun a b => r a b = true)) :
    (insSorted r x l).Pairwise (fun a b => r a b = true) := by
  induction l with
  | nil => simp [insSorted]
  | cons y ys ih =>
    rcases List.pairwise_cons.1 h with ⟨hy, hys⟩
    by_cases hr : r x y
    · rw [insSorted, if_pos hr]
      exact List.pairwise_cons.2 ⟨fun z hz => by
        rcases List.mem_cons.1 hz with he | hz2
        · exact he ▸ hr
        · exact htr x y z hr (hy z hz2), h⟩
    · rw [insSorted, if_neg hr]
      have hyx : r y x = true := (htot x y).resolve_left hr
      refine List.pairwise_cons.2 ⟨fun z hz => ?_, ih hys⟩
      rcases mem_insSorted.1 hz with he | hz2
      · exact he ▸ hyx
      · exact hy z hz2

theorem pairwise_sortBy {r : GoStr → GoStr → Bool}
    (htot : ∀ a b, r a b = true ∨ r b a = true)
    (htr : ∀ a b c, r a b = true → r b c = true → r a c = true)
    (l : List GoStr) : (sortBy r l).Pairwise (fun a b => r a b = true) := by
  induction l with
  | nil => simp [sortBy]
  | cons x xs ih => exact pairwise_insSorted htot htr ih

theorem lexLe_total (a b : GoStr) : lexLe a b = true ∨ lexLe b a = true := by
  induction a generalizing b with
  | nil => left; rfl
  | cons x s ih =>
    cases b with
    | nil => right; rfl
    | cons y t =>
      rcases Nat.lt_trichotomy x y with h | h | h
      · left; simp [lexLe, h]
      · subst h
        rcases ih t with ht | ht
        · left; simpa [lexLe, Nat.lt_irrefl] using ht
        · right; simpa [lexLe, Nat.lt_irrefl] using ht
      · right; simp [lexLe, h]

theorem lexLe_trans {a b c : GoStr} (hab : lexLe a b = true) (hbc : lexLe b c = true) :
    lexLe a c = true := by
  induction a generalizing b c with
  | nil => rfl
  | cons x s ih =>
    cases b with
    | nil => simp [lexLe] at hab
    | cons y t =>
      cases c with
      | nil => simp [lexLe] at hbc
      | cons z u =>
        simp only [lexLe] at hab hbc ⊢
        rcases Nat.lt_trichotomy x y with h1 | h1 | h1
        · rcases Nat.lt_trichotomy y z with h2 | h2 | h2
          · simp [Nat.lt_trans h1 h2]
          · subst h2; simp [h1]
          · simp [h2, Nat.lt_asymm h2] at hbc
        · subst h1
          rcases Nat.lt_trichotomy x z with h2 | h2 | h2
          · simp [h2]
          · subst h2
            simp only [Nat.lt_irrefl, if_false] at hab hbc ⊢
            exact ih hab hbc
          · simp [h2, Nat.lt_asymm h2] at hbc
        · simp [h1, Nat.lt_asymm h1] at hab

/-- The grouped-by-length, lexicographic-within-length relation that the
secondary sort is claimed to establish. -/
def lenLexOrdered (a b : GoStr) : Prop :=
  a.length < b.length ∨ (a.length = b.length ∧ lexLe a b = true)

theorem pairwise_lenLex_insSorted {x : GoStr} {l : List GoStr}
    (hl : l.Pairwise lenLexOrdered) (hx : ∀ y ∈ l, lexLe x y = true) :
    (insSorted byLongestLe x l).Pairwise lenLexOrdered := by
  induction l with
  | nil => simp [insSorted]
  | cons y ys ih =>
    rcases List.pairwise_cons.1 hl with ⟨hy, hys⟩
    by_cases hr : byLongestLe x y
    · rw [insSorted, if_pos hr]
      have hxy : x.length ≤ y.length := by simpa [byLongestLe] using hr
      refine List.pairwise_cons.2 ⟨fun z hz => ?_, hl⟩
      have hlex := hx z hz
      have hxz : x.length ≤ z.length := by
        rcases List.mem_cons.1 hz with he | hz2
        · rw [he]; exact hxy
        · rcases hy z hz2 with hlt | ⟨heq, _⟩
          · exact Nat.le_of_lt (Nat.lt_of_le_of_lt hxy hlt)
          · rw [← heq]; exact hxy
      rcases Nat.lt_or_ge x.length z.length with hlt | hge
      · exact Or.inl hlt
      · exact Or.inr ⟨Nat.le_antisymm hxz hge, hlex⟩
    · rw [insSorted, if_neg hr]
      have hyx : y.length < x.length := Nat.not_le.1 (by simpa [byLongestLe] using hr)
      refine List.pairwise_cons.2 ⟨fun z hz => ?_, ?_⟩
      · rcases mem_insSorted.1 hz with he | hz2
        · exact he ▸ Or.inl hyx
        · exact hy z hz2
      · exact ih hys (fun z hz => hx z (List.mem_cons_of_mem y hz))

theorem pairwise_lenLex_sortBy {l : List GoStr}
    (hl : l.Pairwise (fun a b => lexLe a b = true)) :
    (sortBy byLongestLe l).Pairwise lenLexOrdered := by
  induction l with
  | nil => simp [sortBy]
  | cons x xs ih =>
    rcases List.pairwise_cons.1 hl with ⟨hx, hxs⟩
    exact pairwise_lenLex_insSorted (ih hxs)
      (fun y hy => hx y (mem_sortBy.1 hy))

/-! ## Lemmas: token structure -/

/-- Splitting two appends at the first escape byte: if neither prefix
contains the byte `27` and both are followed by a `27`, the appends can
only line up at the same place. -/
theorem append_esc_split {k1 k2 r1 r2 : List Nat}
    (h : k1 ++ 27 :: r1 = k2 ++ 27 :: r2) (h1 : 27 ∉ k1) (h2 : 27 ∉ k2) :
    k1 = k2 ∧ r1 = r2 := by
  induction k1 generalizing k2 with
  | nil =>
    cases k2 with
    | nil => exact ⟨rfl, by simpa using h⟩
    | cons c k2t =>
      simp only [List.nil_append, List.cons_append, List.cons.injEq] at h
      exact absurd (h.1 ▸ List.mem_cons_self c k2t) (h.1 ▸ h2)
  | cons a k1t ih =>
    cases k2 with
    | nil =>
      simp only [List.nil_append, List.cons_append, List.cons.injEq] at h
      exact absurd (h.1 ▸ List.mem_cons_self a k1t) (h.1 ▸ h1)
    | cons c k2t =>
      simp only [List.cons_append, List.cons.injEq] at h
      have := ih h.2 (fun hm => h1 (List.mem_cons_of_mem a hm))
        (fun hm => h2 (List.mem_cons_of_mem c hm))
      exact ⟨by rw [h.1, this.1], this.2⟩

/-- The escape prefix `fgString` puts before the text ends in `m` and is
followed by the text and then the reset, which begins with byte `27`:
so for keys free of the escape byte, a `key=value` token determines its
key. -/
theorem kvToken_key_inj {opts : HandlerOptions} {sep k1 k2 v1 v2 : GoStr}
    (h : kvToken opts sep k1 v1 = kvToken opts sep k2 v2)
    (h1 : 27 ∉ k1) (h2 : 27 ∉ k2) : k1 = k2 := by
  simp only [kvToken, fgString, List.append_assoc, List.cons_append, List.nil_append,
    List.cons.injEq, true_and] at h
  have h := List.append_cancel_left h
  simp only [List.cons.injEq, true_and] at h
  have h := List.append_cancel_left h
  simp only [List.cons.injEq, true_and] at h
  have h := List.append_cancel_left h
  simp only [List.cons.injEq, true_and] at h
  exact (append_esc_split h h1 h2).1

/-! ## Concrete instances used by witnesses -/

/-- A concrete option set for witness evaluations: truncation on with
limit 3, everything visible, nothing forced. -/
def optsW : HandlerOptions :=
  { TimeFormat := bytes "t", LightBg := false, Truncates := true, TruncateLength := 3,
    SortLongest := false, KeyRGB := ⟨250, 0, 0⟩, ValRGB := ⟨0, 0, 250⟩,
    shouldShowKey := fun _ => true, shouldShowUnchanged := fun _ => false }

/-- A concrete empty handler over `optsW`. -/
def handlerW : JSONHandler :=
  { Opts := optsW, Level := [], Time := .zero, Message := [], Fields := [], last := [] }

/-! ## Claim theorems -/

/-- C8: every call to `Prettify`, unconditionally (no hypothesis on the
record, fields or options), returns a post-state in which the current
field map has become the diff state (`last`), the record is reset to
empty (level, time and message cleared, fields a fresh empty map), and
nothing else of the long-lived state (in particular the options) has
changed — the `defer h.clear()` reset-and-rotate, which is the only
mutation of the diff state on the render path. -/
theorem claim_C8_state_rotation (fmtTime : GoStr → GoTime → GoStr) (h : JSONHandler)
    (skipUnchanged : Bool) :
    (Prettify fmtTime h skipUnchanged).2 =
      { Opts := h.Opts, Level := [], Time := .zero, Message := [], Fields := [],
        last := h.Fields } := rfl

/-- C2: the claim that level abbreviation always succeeds, always
upper-case and at most 4 characters, fails on the code: the slice bound
`imin(4, len(h.Level))` is computed from the ORIGINAL level's byte length
but applied to the upper-cased string, and Unicode upper-casing can
shrink the byte length.  For the level `"ſſſ"` (three times U+017F, six
bytes, upper-casing to the three-byte `"SSS"`) the slice `[:4]` is out of
range and `Prettify` panics, modelled by `levelAbbrev` returning `none`;
for ASCII levels such as `"ok"` the claimed behavior does hold. -/
theorem claim_C2_level_abbrev_panics :
    levelAbbrev [197, 191, 197, 191, 197, 191] = none ∧
      levelAbbrev (bytes "ok") = some (bytes "OK") ∧
      levelAbbrev (bytes "warning") = some (bytes "WARN") := by decide

/-- C6 (amended): the truncation limit counts BYTES of the display value,
not characters: with truncation enabled, a value of more bytes than the
limit becomes its first `TruncateLength` bytes followed by `...`, and a
value of at most `TruncateLength` bytes is unchanged. -/
theorem claim_C6_truncation_bytes (opts : HandlerOptions) (v : GoStr)
    (ht : opts.Truncates = true) :
    (v.length > opts.TruncateLength →
      truncVal opts v = v.take opts.TruncateLength ++ [46, 46, 46])
    ∧ (v.length ≤ opts.TruncateLength → truncVal opts v = v) := by
  constructor <;> intro hlen
  · simp [truncVal, ht, hlen]
  · simp [truncVal, Nat.not_lt.2 hlen]

theorem claim_C6_truncation_bytes_witness :
    truncVal optsW (bytes "abcdef") = (bytes "abcdef").take 3 ++ [46, 46, 46] ∧
      truncVal optsW (bytes "ab") = bytes "ab" :=
  ⟨(claim_C6_truncation_bytes optsW (bytes "abcdef") rfl).1 (by decide),
    (claim_C6_truncation_bytes optsW (bytes "ab") rfl).2 (by decide)⟩

/-- C6 (counterexample): the claim measures the limit in characters; the
code measures bytes.  The display value `"é"` (UTF-8 bytes `[195, 169]`)
is a single character, so with limit 1 the claim says it is rendered
unchanged; the code compares `len(v) = 2 > 1` and truncates it to its
first byte plus `...`, splitting the character. -/
theorem claim_C6_counterexample :
    (utf8DecodeGo [195, 169]).length = 1 ∧
      ({ optsW with TruncateLength := 1 } : HandlerOptions).Truncates = true ∧
      truncVal { optsW with TruncateLength := 1 } [195, 169] = [195, 46, 46, 46] ∧
      truncVal { optsW with TruncateLength := 1 } [195, 169] ≠ [195, 169] := by decide

/-- C9 (amended): truncation operates on the pre-rendered `%q` display
string, whose two surrounding quotes count toward the limit; provided the
limit is at least 1, an over-limit quoted string keeps its opening quote,
loses its closing quote (the kept prefix is strictly shorter than the
whole quoted form), and ends in `...`. -/
theorem claim_C9_quoted_truncation (opts : HandlerOptions) (s : GoStr)
    (ht : opts.Truncates = true) (hpos : 1 ≤ opts.TruncateLength)
    (hlong : (goQuote s).length > opts.TruncateLength) :
    truncVal opts (goQuote s) = (goQuote s).take opts.TruncateLength ++ [46, 46, 46]
    ∧ (truncVal opts (goQuote s)).head? = some 34
    ∧ ((goQuote s).take opts.TruncateLength).length < (goQuote s).length
    ∧ (goQuote s).length = (s.flatMap quoteByte).length + 2 := by
  have heq : truncVal opts (goQuote s) =
      (goQuote s).take opts.TruncateLength ++ [46, 46, 46] := by
    simp [truncVal, ht, hlong]
  refine ⟨heq, ?_, ?_, ?_⟩
  · rw [heq]
    obtain ⟨m, hm⟩ : ∃ m, opts.TruncateLength = m + 1 :=
      ⟨opts.TruncateLength - 1, (Nat.succ_pred_eq_of_pos hpos).symm⟩
    simp [hm, goQuote]
  · rw [List.length_take]
    exact Nat.lt_of_le_of_lt (Nat.min_le_left _ _) hlong
  · simp [goQuote]

theorem claim_C9_quoted_truncation_witness :
    truncVal optsW (goQuote (bytes "abc")) =
        (goQuote (bytes "abc")).take 3 ++ [46, 46, 46]
    ∧ (truncVal optsW (goQuote (bytes "abc"))).head? = some 34
    ∧ ((goQuote (bytes "abc")).take 3).length < (goQuote (bytes "abc")).length
    ∧ (goQuote (bytes "abc")).length = ((bytes "abc").flatMap quoteByte).length + 2 :=
  claim_C9_quoted_truncation optsW (bytes "abc") rfl (by decide) (by decide)

/-- C9 (counterexample): with truncation limit 0 (truncation enabled), an
over-limit string value is rendered as just `...`, WITHOUT its opening
quote — the claim's "rendered with its opening quote" fails at limit 0. -/
theorem claim_C9_counterexample :
    ({ optsW with TruncateLength := 0 } : HandlerOptions).Truncates = true ∧
      (goQuote [97]).length > 0 ∧
      truncVal { optsW with TruncateLength := 0 } (goQuote [97]) = [46, 46, 46] ∧
      (truncVal { optsW with TruncateLength := 0 } (goQuote [97])).head? ≠ some 34 := by
  decide

/-- Membership in the `joinKVs` output: exactly the tokens of the fields
that pass the visibility predicate and escape the diff suppression. -/
theorem mem_joinKVs {opts : HandlerOptions} {fields last : List (GoStr × GoStr)}
    {sk : Bool} {sep t : GoStr} :
    t ∈ joinKVs opts fields last sk sep ↔
      ∃ p ∈ fields, opts.shouldShowKey p.1 = true ∧
        ¬(sk = true ∧ lookupGo last p.1 = some p.2 ∧ opts.shouldShowUnchanged p.1 = false) ∧
        t = kvToken opts sep p.1 p.2 := by
  have hbase : t ∈ joinKVs opts fields last sk sep ↔
      t ∈ fields.filterMap (fun p =>
        if ¬ opts.shouldShowKey p.1 then none
        else if sk ∧ lookupGo last p.1 = some p.2 ∧ ¬ opts.shouldShowUnchanged p.1 then none
        else some (kvToken opts sep p.1 p.2)) := by
    unfold joinKVs
    by_cases hs : opts.SortLongest = true
    · simp only [hs, if_true, mem_sortBy]
    · simp only [eq_false_of_ne_true hs, Bool.false_eq_true, if_false, mem_sortBy]
  rw [hbase, List.mem_filterMap]
  constructor
  · rintro ⟨p, hp, hf⟩
    by_cases h1 : opts.shouldShowKey p.1 = true
    · rw [if_neg (by simp [h1])] at hf
      by_cases h2 : sk = true ∧ lookupGo last p.1 = some p.2 ∧
          opts.shouldShowUnchanged p.1 = false
      · rw [if_pos ⟨h2.1, h2.2.1, by simp [h2.2.2]⟩] at hf
        cases hf
      · have h2' : ¬(sk = true ∧ lookupGo last p.1 = some p.2 ∧
            ¬ opts.shouldShowUnchanged p.1 = true) := by
          intro hc
          exact h2 ⟨hc.1, hc.2.1, by simpa using hc.2.2⟩
        rw [if_neg h2'] at hf
        exact ⟨p, hp, h1, h2, (Option.some_inj.1 hf).symm⟩
    · rw [if_pos (by simpa using h1)] at hf
      cases hf
  · rintro ⟨p, hp, h1, h2, ht⟩
    refine ⟨p, hp, ?_⟩
    rw [if_neg (by simp [h1]), if_neg, ht]
    intro hc
    exact h2 ⟨hc.1, hc.2.1, by simpa using hc.2.2⟩

/-- C4: the field tokens of a render are lexicographically ordered when
the sort-longest option is off; with it on, the stable secondary sort by
length leaves them grouped by ascending token length with equal-length
tokens still in lexicographic relative order. -/
theorem claim_C4_token_sorting (opts : HandlerOptions)
    (fields last : List (GoStr × GoStr)) (sk : Bool) (sep : GoStr) :
    (opts.SortLongest = false →
      (joinKVs opts fields last sk sep).Pairwise (fun a b => lexLe a b = true))
    ∧ (opts.SortLongest = true →
      (joinKVs opts fields last sk sep).Pairwise lenLexOrdered) := by
  constructor <;> intro hs <;> unfold joinKVs <;>
    simp only [hs, Bool.false_eq_true, if_false, if_true]
  · exact pairwise_sortBy lexLe_total (fun a b c => lexLe_trans) _
  · exact pairwise_lenLex_sortBy (pairwise_sortBy lexLe_total (fun a b c => lexLe_trans) _)

theorem claim_C4_token_sorting_witness :
    (joinKVs optsW [(bytes "bb", bytes "1"), (bytes "a", bytes "22")] [] true
        (bytes "=")).Pairwise (fun a b => lexLe a b = true)
    ∧ (joinKVs { optsW with SortLongest := true }
        [(bytes "bb", bytes "1"), (bytes "a", bytes "22")] [] true
        (bytes "=")).Pairwise lenLexOrdered :=
  ⟨(claim_C4_token_sorting optsW _ [] true _).1 rfl,
    (claim_C4_token_sorting { optsW with SortLongest := true } _ [] true _).2 rfl⟩

/-- C3: with skip-unchanged enabled, for a visible key `k` of the current
fields (keys free of the escape byte 27, which the colorized token format
reserves, and pairwise distinct as in a JSON object): if the previous
record's fields held the same display value and the unchanged-override
does not force the key, then no token of key `k` appears in the output;
if the previous value differs (or is absent), the `k=value` token is
present. -/
theorem claim_C3_diff_suppression (opts : HandlerOptions)
    (fields last : List (GoStr × GoStr)) (sep k v : GoStr)
    (hesc : ∀ p ∈ fields, (27 : Nat) ∉ p.1)
    (hnd : (fields.map Prod.fst).Nodup)
    (hshow : opts.shouldShowKey k = true)
    (hmem : (k, v) ∈ fields) :
    ((lookupGo last k = some v ∧ opts.shouldShowUnchanged k = false) →
      ∀ w, kvToken opts sep k w ∉ joinKVs opts fields last true sep)
    ∧ (lookupGo last k ≠ some v →
      kvToken opts sep k v ∈ joinKVs opts fields last true sep) := by
  constructor
  · rintro ⟨hlast, hforce⟩ w hw
    rcases mem_joinKVs.1 hw with ⟨p, hp, hshow2, hnoskip, htok⟩
    have hkey : k = p.1 :=
      kvToken_key_inj htok (hesc (k, v) hmem) (hesc p hp)
    have hv : v = p.2 := value_eq_of_mem_nodup hnd (hkey ▸ hmem) hp
    exact hnoskip ⟨rfl, hkey ▸ hv ▸ hlast, hkey ▸ hforce⟩
  · intro hdiff
    exact mem_joinKVs.2 ⟨(k, v), hmem, hshow,
      fun hc => hdiff hc.2.1, rfl⟩

theorem claim_C3_diff_suppression_witness :
    (∀ w, kvToken optsW (bytes "=") (bytes "a") w ∉
        joinKVs optsW [(bytes "a", bytes "1")] [(bytes "a", bytes "1")] true (bytes "="))
    ∧ kvToken optsW (bytes "=") (bytes "a") (bytes "1") ∈
        joinKVs optsW [(bytes "a", bytes "1")] [(bytes "a", bytes "2")] true (bytes "=") :=
  ⟨(claim_C3_diff_suppression optsW [(bytes "a", bytes "1")] [(bytes "a", bytes "1")]
      (bytes "=") (bytes "a") (bytes "1") (by decide) (by decide) rfl (by decide)).1
      ⟨by decide, rfl⟩,
    (claim_C3_diff_suppression optsW [(bytes "a", bytes "1")] [(bytes "a", bytes "2")]
      (bytes "=") (bytes "a") (bytes "1") (by decide) (by decide) rfl (by decide)).2
      (by decide)⟩

/-- C1 (amended): the code's integer branch applies to EVERY number
(negative ones included) with `v - floor(v) < 1e-6` and `v < 1e9`, both
checks one-sided: no absolute values, no rounding, and every negative
value passes the magnitude check (third conjunct) — so a negative large
integer such as `-2e9` renders through the integer branch, not `%g`.
In the branch the value renders as the decimal of Go's `int(v)`,
truncation toward zero (stated for `v ≥ -2^63`, where the Go `float64 →
int` conversion is defined; the branch's `v < 1e9` bound rules out
positive overflow); for nonnegative values truncation agrees with
`⌊v⌋ = round(v)`, recovering the spec's rendering claim there, while a
negative near-integer such as `-2.9999995` truncates to `"-2"`.  Every
value failing the one-sided test — including values within `1e-6` of an
integer FROM BELOW — renders via the `%g` float branch. -/
theorem claim_C1_number_formatting (q : ℚ) :
    ((-(2 ^ 63) : ℚ) ≤ q → q - (⌊q⌋ : ℚ) < 1 / 1000000 → q < 1000000000 →
      formatVal (.jnum q) = intDec (goTrunc q))
    ∧ (¬(q - (⌊q⌋ : ℚ) < 1 / 1000000 ∧ q < 1000000000) →
      formatVal (.jnum q) = formatG q)
    ∧ (q < 0 → q < 1000000000)
    ∧ (0 ≤ q → q - (⌊q⌋ : ℚ) < 1 / 1000000 → goTrunc q = ⌊q⌋ ∧ round q = ⌊q⌋) := by
  refine ⟨fun _ h1 h2 => ?_, fun hb => ?_, fun hq => ?_, fun h0 h1 => ?_⟩
  · simp only [formatVal, if_pos (And.intro h1 h2)]
  · simp only [formatVal, if_neg hb]
  · exact lt_trans hq (by norm_num)
  · refine ⟨by simp only [goTrunc, if_pos h0], ?_⟩
    rw [round_eq]
    have hfl := Int.floor_le q
    have hlt : q + 1 / 2 < (⌊q⌋ : ℚ) + 1 := by linarith
    rw [Int.floor_eq_iff]
    exact ⟨by linarith, by linarith⟩

theorem claim_C1_number_formatting_witness :
    formatVal (.jnum (14000001 / 2000000)) = intDec (goTrunc (14000001 / 2000000 : ℚ))
    ∧ (goTrunc (14000001 / 2000000 : ℚ) = ⌊(14000001 / 2000000 : ℚ)⌋
        ∧ round (14000001 / 2000000 : ℚ) = ⌊(14000001 / 2000000 : ℚ)⌋)
    ∧ formatVal (.jnum (-2000000000)) = intDec (goTrunc (-2000000000 : ℚ))
    ∧ ((-2000000000 : ℚ) < 1000000000) :=
  ⟨(claim_C1_number_formatting (14000001 / 2000000)).1 (by norm_num) (by norm_num)
      (by norm_num),
    (claim_C1_number_formatting (14000001 / 2000000)).2.2.2 (by norm_num) (by norm_num),
    (claim_C1_number_formatting (-2000000000)).1 (by norm_num) (by norm_num)
      ((claim_C1_number_formatting (-2000000000)).2.2.1 (by norm_num)),
    (claim_C1_number_formatting (-2000000000)).2.2.1 (by norm_num)⟩

/-- C1 (counterexample): the value `2.9999995` is within `1e-6` of its
rounding `3` and far below `1e9`, so the claim says it renders as `"3"`;
the code's one-sided test `v - floor(v) < 1e-6` fails
(`2.9999995 - 2 = 0.9999995`), so it renders via `%g` as `"2.9999995"`. -/
theorem claim_C1_counterexample :
    |(5999999 / 2000000 : ℚ) - ((round (5999999 / 2000000 : ℚ) : ℤ) : ℚ)| < 1 / 1000000 ∧
      |(5999999 / 2000000 : ℚ)| < 1000000000 ∧
      round (5999999 / 2000000 : ℚ) = 3 ∧
      formatVal (.jnum (5999999 / 2000000)) = bytes "2.9999995" ∧
      formatVal (.jnum (5999999 / 2000000)) ≠ intDec (round (5999999 / 2000000 : ℚ)) := by
  have hr : round (5999999 / 2000000 : ℚ) = 3 := by norm_num [round_eq, Int.floor_eq_iff]
  refine ⟨?_, ?_, hr, by decide, ?_⟩
  · rw [hr]; rw [abs_lt]; norm_num
  · rw [abs_lt]; norm_num
  · rw [hr]; decide

/-- The string timestamp the normalizer finds, in the source's priority
order: a string under `time`, else a string under `ts`, else nothing. -/
def tsStr (raw : Raw) : Option GoStr :=
  match lookupJ raw (bytes "ts") with
  | some (.jstr s) => some s
  | _ => none

/-- See `tsStr`. -/
def stringTS (raw : Raw) : Option GoStr :=
  match lookupJ raw (bytes "time") with
  | some (.jstr s) => some s
  | _ => tsStr raw

theorem tsFallback_none_iff {tp : GoStr → Option GoTime} {h : JSONHandler} {raw : Raw} :
    tsFallback tp h raw = none ↔ ∃ s, tsStr raw = some s ∧ tp s = none := by
  rcases hts : lookupGo raw (bytes "ts") with _ | vts
  · simp [tsFallback, tsStr, hts]
  · cases vts with
    | jstr s =>
      rcases htp : tp s with _ | t
      · simp [tsFallback, tsStr, hts, htp]
      · simp [tsFallback, tsStr, hts, htp]
    | jnum f => simp [tsFallback, tsStr, hts]
    | jint i => simp [tsFallback, tsStr, hts]
    | jbool b => simp [tsFallback, tsStr, hts]
    | jnull => simp [tsFallback, tsStr, hts]
    | jarr l => simp [tsFallback, tsStr, hts]
    | jobj l => simp [tsFallback, tsStr, hts]

/-- C5: normalization of a line fails exactly when the line is not
decodable as a JSON object (`none` input), or when the string timestamp
it finds under `time` or `ts` (in that priority order) matches no
supported layout (`tp` returns `none`); and when no `time` or `ts` key is
present at all, it succeeds with the timestamp left at its zero value
(the handler enters each line with a cleared, zero time). -/
theorem claim_C5_failure_conditions (tp : GoStr → Option GoTime) (h : JSONHandler) :
    (UnmarshalJSON tp h none = none)
    ∧ (∀ raw, UnmarshalJSON tp h (some raw) = none ↔
        ∃ s, stringTS raw = some s ∧ tp s = none)
    ∧ (∀ raw, lookupGo raw (bytes "time") = none → lookupGo raw (bytes "ts") = none →
        h.Time = GoTime.zero →
        ∃ h2, UnmarshalJSON tp h (some raw) = some h2 ∧ h2.Time = GoTime.zero) := by
  refine ⟨rfl, fun raw => ?_, fun raw h1 h2 h3 => ?_⟩
  · rcases htime : lookupGo raw (bytes "time") with _ | vt
    · simpa [UnmarshalJSON, stringTS, htime] using tsFallback_none_iff
    · cases vt with
      | jstr s =>
        rcases htp : tp s with _ | t
        · simp [UnmarshalJSON, stringTS, htime, htp]
        · simp [UnmarshalJSON, stringTS, htime, htp]
      | jnum f => simpa [UnmarshalJSON, stringTS, htime] using tsFallback_none_iff
      | jint i => simpa [UnmarshalJSON, stringTS, htime] using tsFallback_none_iff
      | jbool b => simpa [UnmarshalJSON, stringTS, htime] using tsFallback_none_iff
      | jnull => simpa [UnmarshalJSON, stringTS, htime] using tsFallback_none_iff
      | jarr l => simpa [UnmarshalJSON, stringTS, htime] using tsFallback_none_iff
      | jobj l => simpa [UnmarshalJSON, stringTS, htime] using tsFallback_none_iff
  · refine ⟨finishUnmarshal h raw, ?_, ?_⟩
    · simp [UnmarshalJSON, tsFallback, h1, h2]
    · simpa [finishUnmarshal] using h3

theorem claim_C5_failure_conditions_witness :
    (UnmarshalJSON (fun _ => none) handlerW none = none)
    ∧ (UnmarshalJSON (fun _ => none) handlerW
        (some [(bytes "time", .jstr (bytes "strange"))]) = none)
    ∧ (∃ h2, UnmarshalJSON (fun _ => none) handlerW
        (some [(bytes "a", .jnum 3)]) = some h2 ∧ h2.Time = GoTime.zero) :=
  ⟨(claim_C5_failure_conditions (fun _ => none) handlerW).1,
    ((claim_C5_failure_conditions (fun _ => none) handlerW).2.1 _).2
      ⟨bytes "strange", by decide, rfl⟩,
    (claim_C5_failure_conditions (fun _ => none) handlerW).2.2 _ rfl rfl rfl⟩

/-- C10: when the cheap probe fails (the raw bytes contain neither
`"time":` nor `"ts":`), `TryHandle` reports false and leaves the whole
handler state — diff baseline included — exactly as it was; when the
probe passes but the full parse fails, it reports false with the record
reset and the (pipeline-empty) current field map rotated into the diff
baseline, so nothing is suppressed from the next rendered line. -/
theorem claim_C10_tryhandle_frame (decode : GoStr → Option Raw)
    (tp : GoStr → Option GoTime) (h : JSONHandler) (d : GoStr) :
    (containsSub d (bytes "\"time\":") = false → containsSub d (bytes "\"ts\":") = false →
      TryHandle decode tp h d = (false, h))
    ∧ ((containsSub d (bytes "\"time\":") = true ∨ containsSub d (bytes "\"ts\":") = true) →
      UnmarshalJSON tp h (decode d) = none →
      TryHandle decode tp h d = (false, h.clear) ∧ (h.clear).last = h.Fields ∧
        (h.Fields = [] → ∀ k, lookupGo (h.clear).last k = none)) := by
  constructor
  · intro h1 h2
    simp [TryHandle, h1, h2]
  · intro hor hu
    have hprobe : ¬¬ (containsSub d (bytes "\"time\":") = true ∨
        containsSub d (bytes "\"ts\":") = true) := not_not_intro hor
    refine ⟨by simp [TryHandle, hor, hu], rfl, fun hf k => ?_⟩
    show lookupGo h.Fields k = none
    rw [hf]; rfl

theorem claim_C10_tryhandle_frame_witness :
    (TryHandle (fun _ => none) (fun _ => none) handlerW (bytes "plain text") =
      (false, handlerW))
    ∧ (TryHandle (fun _ => none) (fun _ => none) handlerW (bytes "junk \"ts\": junk") =
        (false, handlerW.clear) ∧ (handlerW.clear).last = handlerW.Fields ∧
        (handlerW.Fields = [] → ∀ k, lookupGo (handlerW.clear).last k = none)) :=
  ⟨(claim_C10_tryhandle_frame (fun _ => none) (fun _ => none) handlerW
      (bytes "plain text")).1 (by decide) (by decide),
    (claim_C10_tryhandle_frame (fun _ => none) (fun _ => none) handlerW
      (bytes "junk \"ts\": junk")).2 (Or.inr (by decide)) rfl⟩

/-! ## C7: reserved keys never reach the field map -/

/-- Is this looked-up value a string? (Go's `raw[k].(string)` comma-ok.) -/
def isStrOpt : Option JVal → Bool
  | some (.jstr _) => true
  | _ => false

/-- Is this looked-up value one of the numeric `ts` shapes the source
consumes (`int64` or `float64`)? -/
def isNumTsOpt : Option JVal → Bool
  | some (.jint _) => true
  | some (.jnum _) => true
  | _ => false

/-- `time` is consumed exactly when it holds a string. -/
def timeConsumed (raw : Raw) : Bool := isStrOpt (lookupJ raw (bytes "time"))

/-- `ts` is consumed when `time` held no string and `ts` holds a string,
an `int64` or a `float64`. -/
def tsConsumed (raw : Raw) : Bool :=
  !timeConsumed raw &&
    (isStrOpt (lookupJ raw (bytes "ts")) || isNumTsOpt (lookupJ raw (bytes "ts")))

/-- `msg` is consumed exactly when it holds a string. -/
def msgConsumed (raw : Raw) : Bool := isStrOpt (lookupJ raw (bytes "msg"))

/-- `message` is consumed when `msg` held no string and it holds one. -/
def messageConsumed (raw : Raw) : Bool :=
  !msgConsumed raw && isStrOpt (lookupJ raw (bytes "message"))

/-- `level` is consumed exactly when it holds a string. -/
def levelConsumed (raw : Raw) : Bool := isStrOpt (lookupJ raw (bytes "level"))

/-- `lvl` is consumed into the level when `level` held no string and
`lvl` holds one (the source in fact deletes `lvl` even more often). -/
def lvlConsumed (raw : Raw) : Bool :=
  !levelConsumed raw && isStrOpt (lookupJ raw (bytes "lvl"))

theorem isStrOpt_true {o : Option JVal} (h : isStrOpt o = true) :
    ∃ s, o = some (.jstr s) := by
  rcases o with _ | v
  · simp [isStrOpt] at h
  · cases v <;> first | exact ⟨_, rfl⟩ | simp [isStrOpt] at h

theorem extractMsg_none {raw : Raw} {k : GoStr} (hk : lookupGo raw k = none) :
    lookupGo (extractMsg raw).2 k = none := by
  unfold extractMsg
  split
  · exact lookupGo_none_delGo _ _ hk
  · split
    · exact lookupGo_none_delGo _ _ hk
    · exact hk

theorem extractLevel_none {raw : Raw} {k : GoStr} (hk : lookupGo raw k = none) :
    lookupGo (extractLevel raw).2 k = none := by
  unfold extractLevel
  split
  · exact lookupGo_none_delGo _ _ hk
  · split <;> exact lookupGo_none_delGo _ _ hk

theorem extractMsg_ne {raw : Raw} {k : GoStr} (h1 : k ≠ bytes "msg")
    (h2 : k ≠ bytes "message") : lookupGo (extractMsg raw).2 k = lookupGo raw k := by
  unfold extractMsg
  split
  · exact lookupGo_delGo_ne _ h1
  · split
    · exact lookupGo_delGo_ne _ h2
    · rfl

theorem extractMsg_msg_none {raw : Raw}
    (h : isStrOpt (lookupGo raw (bytes "msg")) = true) :
    lookupGo (extractMsg raw).2 (bytes "msg") = none := by
  unfold extractMsg
  split
  · exact lookupGo_delGo_self _ _
  · rename_i hne
    rcases isStrOpt_true h with ⟨s, hs⟩
    exact absurd hs (by simpa using hne s)

theorem extractMsg_message_none {raw : Raw}
    (h1 : isStrOpt (lookupGo raw (bytes "msg")) = false)
    (h2 : isStrOpt (lookupGo raw (bytes "message")) = true) :
    lookupGo (extractMsg raw).2 (bytes "message") = none := by
  unfold extractMsg
  split
  · rename_i s2 hs2
    rw [show lookupGo raw (bytes "msg") = some (JVal.jstr s2) from hs2] at h1
    simp [isStrOpt] at h1
  · split
    · exact lookupGo_delGo_self _ _
    · rename_i hne
      rcases isStrOpt_true h2 with ⟨s, hs⟩
      exact absurd hs (by simpa using hne s)

theorem extractLevel_level_none {raw : Raw}
    (h : isStrOpt (lookupGo raw (bytes "level")) = true) :
    lookupGo (extractLevel raw).2 (bytes "level") = none := by
  unfold extractLevel
  split
  · exact lookupGo_delGo_self _ _
  · rename_i hne
    rcases isStrOpt_true h with ⟨s, hs⟩
    exact absurd hs (by simpa using hne s)

theorem extractLevel_lvl_none {raw : Raw}
    (h : isStrOpt (lookupGo raw (bytes "level")) = false) :
    lookupGo (extractLevel raw).2 (bytes "lvl") = none := by
  unfold extractLevel
  split
  · rename_i s2 hs2
    rw [show lookupGo raw (bytes "level") = some (JVal.jstr s2) from hs2] at h
    simp [isStrOpt] at h
  · split
    · exact lookupGo_delGo_self _ _
    · exact lookupGo_delGo_self _ _

theorem finish_fields_none {h : JSONHandler} {raw : Raw} {k : GoStr}
    (hf : h.Fields = [])
    (hk : lookupGo (extractLevel (extractMsg raw).2).2 k = none) :
    lookupGo (finishUnmarshal h raw).Fields k = none := by
  show lookupGo ((extractLevel (extractMsg raw).2).2.foldl
    (fun fs p => storeS fs p.1 (formatVal p.2)) h.Fields) k = none
  exact lookupGo_fieldsFold _ _ hk (by rw [hf]; rfl)

/-- The `msg`/`message`/`level`/`lvl` consumption conjuncts, for a
remainder map `raw2` that agrees with the original object on every
non-timestamp key. -/
theorem finish_reserved_mlll (h : JSONHandler) (raw raw2 : Raw)
    (hf : h.Fields = [])
    (htr : ∀ k, k ≠ bytes "time" → k ≠ bytes "ts" → lookupGo raw2 k = lookupGo raw k) :
    (msgConsumed raw = true →
      lookupGo (finishUnmarshal h raw2).Fields (bytes "msg") = none)
    ∧ (messageConsumed raw = true →
      lookupGo (finishUnmarshal h raw2).Fields (bytes "message") = none)
    ∧ (levelConsumed raw = true →
      lookupGo (finishUnmarshal h raw2).Fields (bytes "level") = none)
    ∧ (lvlConsumed raw = true →
      lookupGo (finishUnmarshal h raw2).Fields (bytes "lvl") = none) := by
  have hmsg := htr (bytes "msg") (by decide) (by decide)
  have hmessage := htr (bytes "message") (by decide) (by decide)
  have hlevel := htr (bytes "level") (by decide) (by decide)
  refine ⟨fun hc => ?_, fun hc => ?_, fun hc => ?_, fun hc => ?_⟩
  · refine finish_fields_none hf (extractLevel_none (extractMsg_msg_none ?_))
    rw [hmsg]; exact hc
  · have hc' : msgConsumed raw = false ∧ isStrOpt (lookupGo raw (bytes "message")) = true := by
      have := hc
      simp only [messageConsumed, Bool.and_eq_true, Bool.not_eq_true'] at this
      exact this
    refine finish_fields_none hf (extractLevel_none (extractMsg_message_none ?_ ?_))
    · rw [hmsg]; exact hc'.1
    · rw [hmessage]; exact hc'.2
  · refine finish_fields_none hf (extractLevel_level_none ?_)
    rw [extractMsg_ne (by decide) (by decide), hlevel]; exact hc
  · have hc' : levelConsumed raw = false := by
      have := hc
      simp only [lvlConsumed, Bool.and_eq_true, Bool.not_eq_true'] at this
      exact this.1
    refine finish_fields_none hf (extractLevel_lvl_none ?_)
    rw [extractMsg_ne (by decide) (by decide), hlevel]
    exact hc'

/-- The reserved-key conjuncts in the case where no string was found
under `time`, so normalization went through `tsFallback`. -/
theorem reservedKeys_tsarm (tp : GoStr → Option GoTime) (h : JSONHandler)
    (raw : Raw) (h2 : JSONHandler) (hf : h.Fields = [])
    (hu2 : tsFallback tp h raw = some h2) (hnostr : timeConsumed raw = false) :
    (timeConsumed raw = true → lookupGo h2.Fields (bytes "time") = none)
    ∧ (tsConsumed raw = true → lookupGo h2.Fields (bytes "ts") = none)
    ∧ (msgConsumed raw = true → lookupGo h2.Fields (bytes "msg") = none)
    ∧ (messageConsumed raw = true → lookupGo h2.Fields (bytes "message") = none)
    ∧ (levelConsumed raw = true → lookupGo h2.Fields (bytes "level") = none)
    ∧ (lvlConsumed raw = true → lookupGo h2.Fields (bytes "lvl") = none) := by
  have hvac : timeConsumed raw = true → lookupGo h2.Fields (bytes "time") = none := by
    intro hc; rw [hc] at hnostr; cases hnostr
  have htrdel : ∀ k, k ≠ bytes "time" → k ≠ bytes "ts" →
      lookupGo (delGo raw (bytes "ts")) k = lookupGo raw k :=
    fun k _ hk => lookupGo_delGo_ne raw hk
  rcases hts : lookupGo raw (bytes "ts") with _ | v
  case none =>
    simp only [tsFallback, hts, Option.some.injEq] at hu2
    subst hu2
    have hm := finish_reserved_mlll h raw raw hf (fun _ _ _ => rfl)
    refine ⟨hvac, fun hc => ?_, hm.1, hm.2.1, hm.2.2.1, hm.2.2.2⟩
    simp [tsConsumed, hts, isStrOpt, isNumTsOpt] at hc
  case some =>
    cases v with
    | jstr s =>
      rcases htp : tp s with _ | t
      · simp only [tsFallback, hts, htp] at hu2
        exact Option.noConfusion hu2
      · simp only [tsFallback, hts, htp, Option.some.injEq] at hu2
        subst hu2
        have hm := finish_reserved_mlll { h with Time := t } raw
          (delGo raw (bytes "ts")) hf htrdel
        exact ⟨hvac, fun _ => finish_fields_none hf
          (extractLevel_none (extractMsg_none (lookupGo_delGo_self _ _))),
          hm.1, hm.2.1, hm.2.2.1, hm.2.2.2⟩
    | jint i =>
      simp only [tsFallback, hts, Option.some.injEq] at hu2
      subst hu2
      have hm := finish_reserved_mlll { h with Time := .unix i 0 } raw
        (delGo raw (bytes "ts")) hf htrdel
      exact ⟨hvac, fun _ => finish_fields_none hf
        (extractLevel_none (extractMsg_none (lookupGo_delGo_self _ _))),
        hm.1, hm.2.1, hm.2.2.1, hm.2.2.2⟩
    | jnum f =>
      simp only [tsFallback, hts, Option.some.injEq] at hu2
      subst hu2
      have hm := finish_reserved_mlll
        { h with Time := .unix (goTrunc f) (goTrunc ((f - (goTrunc f : ℚ)) * 1000000000)) }
        raw (delGo raw (bytes "ts")) hf htrdel
      exact ⟨hvac, fun _ => finish_fields_none hf
        (extractLevel_none (extractMsg_none (lookupGo_delGo_self _ _))),
        hm.1, hm.2.1, hm.2.2.1, hm.2.2.2⟩
    | jbool b =>
      simp only [tsFallback, hts, Option.some.injEq] at hu2
      subst hu2
      have hm := finish_reserved_mlll h raw raw hf (fun _ _ _ => rfl)
      refine ⟨hvac, fun hc => ?_, hm.1, hm.2.1, hm.2.2.1, hm.2.2.2⟩
      simp [tsConsumed, hts, isStrOpt, isNumTsOpt] at hc
    | jnull =>
      simp only [tsFallback, hts, Option.some.injEq] at hu2
      subst hu2
      have hm := finish_reserved_mlll h raw raw hf (fun _ _ _ => rfl)
      refine ⟨hvac, fun hc => ?_, hm.1, hm.2.1, hm.2.2.1, hm.2.2.2⟩
      simp [tsConsumed, hts, isStrOpt, isNumTsOpt] at hc
    | jarr l =>
      simp only [tsFallback, hts, Option.some.injEq] at hu2
      subst hu2
      have hm := finish_reserved_mlll h raw raw hf (fun _ _ _ => rfl)
      refine ⟨hvac, fun hc => ?_, hm.1, hm.2.1, hm.2.2.1, hm.2.2.2⟩
      simp [tsConsumed, hts, isStrOpt, isNumTsOpt] at hc
    | jobj l =>
      simp only [tsFallback, hts, Option.some.injEq] at hu2
      subst hu2
      have hm := finish_reserved_mlll h raw raw hf (fun _ _ _ => rfl)
      refine ⟨hvac, fun hc => ?_, hm.1, hm.2.1, hm.2.2.1, hm.2.2.2⟩
      simp [tsConsumed, hts, isStrOpt, isNumTsOpt] at hc

/-- C7: after every successful normalization starting from the pipeline's
empty field map, the resulting fields contain none of the reserved keys
that were matched and consumed into the timestamp (`time`, `ts`), the
message (`msg`, `message`) or the level (`level`, `lvl`). -/
theorem claim_C7_reserved_keys (tp : GoStr → Option GoTime) (h : JSONHandler)
    (raw : Raw) (h2 : JSONHandler) (hf : h.Fields = [])
    (hu : UnmarshalJSON tp h (some raw) = some h2) :
    (timeConsumed raw = true → lookupGo h2.Fields (bytes "time") = none)
    ∧ (tsConsumed raw = true → lookupGo h2.Fields (bytes "ts") = none)
    ∧ (msgConsumed raw = true → lookupGo h2.Fields (bytes "msg") = none)
    ∧ (messageConsumed raw = true → lookupGo h2.Fields (bytes "message") = none)
    ∧ (levelConsumed raw = true → lookupGo h2.Fields (bytes "level") = none)
    ∧ (lvlConsumed raw = true → lookupGo h2.Fields (bytes "lvl") = none) := by
  rcases htime : lookupGo raw (bytes "time") with _ | vt
  case some =>
    cases vt with
    | jstr s =>
      rcases htp : tp s with _ | t
      · simp only [UnmarshalJSON, htime, htp] at hu
        exact Option.noConfusion hu
      · simp only [UnmarshalJSON, htime, htp, Option.some.injEq] at hu
        subst hu
        have htr : ∀ k, k ≠ bytes "time" → k ≠ bytes "ts" →
            lookupGo (delGo raw (bytes "time")) k = lookupGo raw k :=
          fun k hk _ => lookupGo_delGo_ne raw hk
        have hm := finish_reserved_mlll { h with Time := t } raw
          (delGo raw (bytes "time")) hf htr
        refine ⟨fun _ => ?_, fun hts => ?_, hm.1, hm.2.1, hm.2.2.1, hm.2.2.2⟩
        · exact finish_fields_none hf
            (extractLevel_none (extractMsg_none (lookupGo_delGo_self _ _)))
        · simp [tsConsumed, timeConsumed, htime, isStrOpt] at hts
    | jnum f =>
      simp only [UnmarshalJSON, htime] at hu
      exact reservedKeys_tsarm tp h raw h2 hf hu (by simp [timeConsumed, htime, isStrOpt])
    | jint i =>
      simp only [UnmarshalJSON, htime] at hu
      exact reservedKeys_tsarm tp h raw h2 hf hu (by simp [timeConsumed, htime, isStrOpt])
    | jbool b =>
      simp only [UnmarshalJSON, htime] at hu
      exact reservedKeys_tsarm tp h raw h2 hf hu (by simp [timeConsumed, htime, isStrOpt])
    | jnull =>
      simp only [UnmarshalJSON, htime] at hu
      exact reservedKeys_tsarm tp h raw h2 hf hu (by simp [timeConsumed, htime, isStrOpt])
    | jarr l =>
      simp only [UnmarshalJSON, htime] at hu
      exact reservedKeys_tsarm tp h raw h2 hf hu (by simp [timeConsumed, htime, isStrOpt])
    | jobj l =>
      simp only [UnmarshalJSON, htime] at hu
      exact reservedKeys_tsarm tp h raw h2 hf hu (by simp [timeConsumed, htime, isStrOpt])
  case none =>
    simp only [UnmarshalJSON, htime] at hu
    exact reservedKeys_tsarm tp h raw h2 hf hu (by simp [timeConsumed, htime, isStrOpt])

/-- Concrete normalization input for the C7 witness. -/
def rawW : Raw :=
  [(bytes "time", .jstr (bytes "2024")), (bytes "msg", .jstr (bytes "hi")),
    (bytes "level", .jstr (bytes "info")), (bytes "count", .jnum 3)]

/-- Concrete timestamp parser for the C7 witness. -/
def tpW : GoStr → Option GoTime := fun s => some (.parsed s)

/-- The handler state the C7 witness's normalization produces. -/
def h2W : JSONHandler :=
  finishUnmarshal { handlerW with Time := .parsed (bytes "2024") }
    (delGo rawW (bytes "time"))

theorem claim_C7_reserved_keys_witness :
    lookupGo h2W.Fields (bytes "time") = none ∧
      lookupGo h2W.Fields (bytes "msg") = none ∧
      lookupGo h2W.Fields (bytes "level") = none :=
  ⟨(claim_C7_reserved_keys tpW handlerW rawW h2W rfl rfl).1 rfl,
    (claim_C7_reserved_keys tpW handlerW rawW h2W rfl rfl).2.2.1 rfl,
    (claim_C7_reserved_keys tpW handlerW rawW h2W rfl rfl).2.2.2.2.1 rfl⟩

end Humanlog
